import Mathlib

/-!
Verification of the redline document system: the multi-edit text replacement
engine (`core/text_replace.py`), the GCS lock protocol
(`core/document_store.py`), the document store `append` operation, and the
batch redline endpoint (`main.py`). Text is modelled as `List Char`
(Python `str`), Python `int` as `Int`, and the remote blob store as explicit
state passed through each operation, with Boolean flags standing for the
outcomes of the fallible I/O primitives.
-/

namespace Redline

/-! ## Change engine (`core/text_replace.py`) -/

/-- `pat` occurs in `text` at index `i` (Python substring match semantics:
`text[i:i+len(pat)] == pat`, which also requires `i + len(pat) ≤ len(text)`;
for the empty pattern this is `i ≤ len(text)`). -/
def matchesAt (text pat : List Char) (i : Nat) : Bool :=
  decide (i + pat.length ≤ text.length) && ((text.drop i).take pat.length == pat)

/-- Python `text.find(pat, start)`: the lowest index `i ≥ start` at which `pat`
occurs in `text`, or `none` (Python `-1`) when there is no such index. -/
def pyFind (text pat : List Char) (start : Nat) : Option Nat :=
  (List.range' start (text.length + 1 - start)).find? (matchesAt text pat)

/-- The scanning loop shared by `_find_target_position` (lines 60-67) and
`_replace_by_target` (lines 93-98): run `n + 1` successive `find` calls, each
restarting one character past the previous hit (`start = pos + 1`). -/
def findNth (text pat : List Char) (start : Nat) : Nat → Option Nat
  | 0 => pyFind text pat start
  | n + 1 =>
    match pyFind text pat start with
    | none => none
    | some pos => findNth text pat (pos + 1) n

/-- `TextReplacer._find_target_position`: position of the `occurrence`-th
(1-indexed) match, `none` (Python `-1`) for `occurrence < 1` or when the match
does not exist. -/
def find_target_position (text target_text : List Char) (occurrence : Int) : Option Nat :=
  if occurrence < 1 then none
  else findNth text target_text 0 (occurrence.toNat - 1)

/-- A single change dict with `operation == 'replace'`: either a `target`
spec `{text, occurrence}` or a `range` spec `{start, end}`, each with its
replacement string. -/
inductive Change where
  | target (target_text : List Char) (occurrence : Int) (replacement : List Char)
  | range (start stop : Int) (replacement : List Char)

/-- `TextReplacer._replace_by_target` (lines 81-101): re-runs the occurrence
scan on the given text and splices the replacement over the found match;
returns the text unchanged when `occurrence < 1` or the match is absent. -/
def replace_by_target (text target_text : List Char) (occurrence : Int)
    (replacement : List Char) : List Char :=
  if occurrence < 1 then text
  else
    match findNth text target_text 0 (occurrence.toNat - 1) with
    | none => text
    | some pos => text.take pos ++ replacement ++ text.drop (pos + target_text.length)

/-- `TextReplacer._replace_by_range` (lines 103-114): `text[:start] +
replacement + text[end:]` when `0 ≤ start ≤ end ≤ len(text)`, else the text
unchanged. -/
def replace_by_range (text : List Char) (start stop : Int)
    (replacement : List Char) : List Char :=
  if start < 0 ∨ stop > (text.length : Int) ∨ start > stop then text
  else text.take start.toNat ++ replacement ++ text.drop stop.toNat

/-- `TextReplacer._apply_single_change` restricted to the two replace forms. -/
def apply_single_change (text : List Char) : Change → List Char
  | .target t occ repl => replace_by_target text t occ repl
  | .range s e repl => replace_by_range text s e repl

/-- The position a change resolves to inside `_sort_changes_by_position`
(lines 33-46): `none` means the change is filtered out of the batch. -/
def change_position (text : List Char) : Change → Option Nat
  | .target t occ _ => find_target_position text t occ
  | .range s e _ =>
    if 0 ≤ s ∧ e ≤ (text.length : Int) ∧ s ≤ e then some s.toNat else none

/-- `TextReplacer._sort_changes_by_position` (lines 29-50): resolve each
change's position against the original text, drop unresolvable changes, and
stable-sort ascending by position (Python `list.sort`). -/
def sort_changes_by_position (text : List Char) (changes : List Change) : List Change :=
  ((changes.filterMap fun c => (change_position text c).map fun p => (p, c)).mergeSort
    fun a b => a.1 ≤ b.1).map Prod.snd

/-- `TextReplacer.apply_changes` (lines 7-27): sort by original-text position,
then apply the changes one at a time in reverse (descending-position) order. -/
def apply_changes (text : List Char) (changes : List Change) : List Char :=
  (sort_changes_by_position text changes).reverse.foldl apply_single_change text

/-! Spec-side notion of match positions, written from the spec's words
("the 1-indexed ordinal of a substring match scanning left-to-right",
overlapping matches counted separately): the increasing list of every index
at which the pattern occurs. -/

/-- All indices of `text` (inclusive of `text.length` for the empty pattern)
at which `pat` occurs, in increasing order. -/
def matchPositions (text pat : List Char) : List Nat :=
  (List.range (text.length + 1)).filter (matchesAt text pat)

/-! ### Helper lemmas -/

theorem find?_eq_none_filter {α : Type} {p : α → Bool} {l : List α}
    (h : l.find? p = none) : l.filter p = [] := by
  rw [List.filter_eq_nil_iff]
  intro a ha
  exact List.find?_eq_none.mp h a ha

/-- When `find?` over a contiguous range returns `p`, the filtered range is
`p` followed by the filtered tail starting at `p + 1`. -/
theorem filter_range'_eq_cons {q : Nat → Bool} :
    ∀ (n s p : Nat), (List.range' s n).find? q = some p →
      (List.range' s n).filter q = p :: (List.range' (p + 1) (s + n - (p + 1))).filter q := by
  intro n
  induction n with
  | zero => intro s p h; simp [List.range'] at h
  | succ n ih =>
    intro s p h
    rw [List.range'_succ] at h ⊢
    by_cases hq : q s
    · rw [List.find?_cons_of_pos _ hq] at h
      obtain rfl : s = p := by simpa using h
      have hn : s + (n + 1) - (s + 1) = n := by omega
      rw [hn, List.filter_cons_of_pos hq]
    · rw [List.find?_cons_of_neg _ hq] at h
      have hn : s + (n + 1) - (p + 1) = s + 1 + n - (p + 1) := by omega
      rw [hn, List.filter_cons_of_neg hq, ih (s + 1) p h]

/-- Matches from position `s` on, in increasing order. -/
def mpFrom (text pat : List Char) (s : Nat) : List Nat :=
  (List.range' s (text.length + 1 - s)).filter (matchesAt text pat)

theorem pyFind_mem_bounds {text pat : List Char} {s p : Nat}
    (h : pyFind text pat s = some p) : s ≤ p ∧ p < text.length + 1 := by
  have hm := List.mem_of_find?_eq_some h
  have := List.mem_range'_1.mp hm
  omega

theorem mpFrom_eq_cons {text pat : List Char} {s p : Nat}
    (h : pyFind text pat s = some p) :
    mpFrom text pat s = p :: mpFrom text pat (p + 1) := by
  have hb := pyFind_mem_bounds h
  have := filter_range'_eq_cons (text.length + 1 - s) s p h
  rw [mpFrom, this, mpFrom]
  congr 3
  omega

/-- The scanning loop computes exactly the `n`-th (0-indexed) element of the
list of match positions at or after `s`. -/
theorem findNth_eq_getElem? (text pat : List Char) :
    ∀ (n s : Nat), findNth text pat s n = (mpFrom text pat s)[n]? := by
  intro n
  induction n with
  | zero =>
    intro s
    rw [findNth]
    cases h : pyFind text pat s with
    | none =>
      rw [mpFrom, find?_eq_none_filter h]
      rfl
    | some p =>
      rw [mpFrom_eq_cons h]
      simp
  | succ n ih =>
    intro s
    rw [findNth]
    cases h : pyFind text pat s with
    | none =>
      rw [mpFrom, find?_eq_none_filter h]
      rfl
    | some p =>
      rw [mpFrom_eq_cons h, List.getElem?_cons_succ]
      exact ih (p + 1)

theorem matchPositions_eq_mpFrom (text pat : List Char) :
    matchPositions text pat = mpFrom text pat 0 := by
  rw [matchPositions, mpFrom, List.range_eq_range', Nat.sub_zero]

/-- `_find_target_position` returns the `k`-th (1-indexed) left-to-right match
position. -/
theorem find_target_position_eq (text pat : List Char) (k : Int) (hk : 1 ≤ k) :
    find_target_position text pat k = (matchPositions text pat)[k.toNat - 1]? := by
  rw [find_target_position, if_neg (by omega), matchPositions_eq_mpFrom,
    findNth_eq_getElem?]

/-- A singleton batch whose change resolves to a position is applied as the
single change. -/
theorem apply_changes_singleton {text : List Char} {c : Change} {p : Nat}
    (h : change_position text c = some p) :
    apply_changes text [c] = apply_single_change text c := by
  have hfm :
      List.filterMap (fun c => (change_position text c).map fun p => (p, c)) [c] = [(p, c)] := by
    simp [h]
  rw [apply_changes, sort_changes_by_position, hfm, List.mergeSort_singleton]
  rfl

/-! ## Claims about the change engine -/

/-- **C1.** For every text and every `RangeEdit` with
`0 ≤ start ≤ end ≤ len(text)`, applying a batch containing exactly that one
edit returns `text[:start] + replacement + text[end:]`. -/
theorem range_edit_batch_correct (text replacement : List Char) (s e : Int)
    (h0 : 0 ≤ s) (hse : s ≤ e) (he : e ≤ (text.length : Int)) :
    apply_changes text [Change.range s e replacement] =
      text.take s.toNat ++ replacement ++ text.drop e.toNat := by
  have hpos : change_position text (Change.range s e replacement) = some s.toNat := by
    rw [change_position, if_pos ⟨h0, he, hse⟩]
  rw [apply_changes_singleton hpos, apply_single_change, replace_by_range,
    if_neg (by omega)]

theorem range_edit_batch_correct_witness :
    apply_changes ['h', 'e', 'l', 'l', 'o'] [Change.range 1 3 ['X']] =
      ['h', 'X', 'l', 'o'] := by
  have := range_edit_batch_correct ['h', 'e', 'l', 'l', 'o'] ['X'] 1 3
    (by decide) (by decide) (by decide)
  simpa using this

/-- Shared splice lemma: a singleton target batch whose `k`-th match (1-indexed,
left to right, overlapping matches counted) is at `pos` yields
`text[:pos] + replacement + text[pos+len(target):]`. -/
theorem apply_changes_target_eq (text pat repl : List Char) (k : Int) (pos : Nat)
    (hk : 1 ≤ k) (hpos : (matchPositions text pat)[k.toNat - 1]? = some pos) :
    apply_changes text [Change.target pat k repl] =
      text.take pos ++ repl ++ text.drop (pos + pat.length) := by
  have hf : find_target_position text pat k = some pos := by
    rw [find_target_position_eq text pat k hk]
    exact hpos
  have hcp : change_position text (Change.target pat k repl) = some pos := hf
  have hn : findNth text pat 0 (k.toNat - 1) = some pos := by
    rw [find_target_position, if_neg (by omega)] at hf
    exact hf
  rw [apply_changes_singleton hcp, apply_single_change, replace_by_target,
    if_neg (by omega), hn]

/-- **C2.** For every text in which `target_text` occurs at least `k` times
(`k ≥ 1`), a batch containing exactly one `TargetEdit{target_text, k, R}`
replaces exactly the `k`-th left-to-right match with `R` and leaves every
character outside that match untouched: the output is
`text[:p_k] + R + text[p_k + len(target_text):]` where `p_k` is the position
of the `k`-th match. -/
theorem target_edit_replaces_kth_match (text pat repl : List Char) (k : Int) (pos : Nat)
    (hk : 1 ≤ k) (hpos : (matchPositions text pat)[k.toNat - 1]? = some pos) :
    apply_changes text [Change.target pat k repl] =
      text.take pos ++ repl ++ text.drop (pos + pat.length) :=
  apply_changes_target_eq text pat repl k pos hk hpos

theorem target_edit_replaces_kth_match_witness :
    (matchPositions ['a', 'b', 'a', 'b'] ['a', 'b'])[(2 : Int).toNat - 1]? = some 2 ∧
    apply_changes ['a', 'b', 'a', 'b'] [Change.target ['a', 'b'] 2 ['X']] =
      ['a', 'b', 'X'] := by
  refine ⟨by decide, ?_⟩
  have := target_edit_replaces_kth_match ['a', 'b', 'a', 'b'] ['a', 'b'] ['X'] 2 2
    (by decide) (by decide)
  simpa using this

/-- **C10.** Occurrence counting resumes scanning one character past the start
of each match (`start = pos + 1`), so overlapping matches count as distinct
occurrences: in `"aaa"` with target `"aa"`, occurrence 1 is at index 0,
occurrence 2 at index 1, and `TargetEdit{"aa", 2, R}` replaces the overlapping
match starting at index 1 (yielding `"a" + R`). -/
theorem overlapping_occurrences_counted (repl : List Char) :
    find_target_position ['a', 'a', 'a'] ['a', 'a'] 1 = some 0 ∧
    find_target_position ['a', 'a', 'a'] ['a', 'a'] 2 = some 1 ∧
    apply_changes ['a', 'a', 'a'] [Change.target ['a', 'a'] 2 repl] = 'a' :: repl := by
  refine ⟨by decide, by decide, ?_⟩
  have := apply_changes_target_eq ['a', 'a', 'a'] ['a', 'a'] repl 2 1
    (by decide) (by decide)
  simpa using this

/-- A change is invalid in the sense of the validity filter: occurrence below 1,
the requested occurrence does not exist, or an out-of-bounds/inverted range. -/
def invalid_change (text : List Char) : Change → Prop
  | .target t occ _ => occ < 1 ∨ (matchPositions text t).length < occ.toNat
  | .range s e _ => s < 0 ∨ e > (text.length : Int) ∨ s > e

theorem change_position_eq_none {text : List Char} {c : Change}
    (h : invalid_change text c) : change_position text c = none := by
  cases c with
  | target t occ repl =>
    rw [change_position]
    rcases h with h | h
    · rw [find_target_position, if_pos h]
    · by_cases h1 : occ < 1
      · rw [find_target_position, if_pos h1]
      · rw [find_target_position_eq text t occ (by omega)]
        exact List.getElem?_eq_none (by omega)
  | range s e repl =>
    rcases h with h | h | h <;>
      · rw [change_position, if_neg (by omega)]

/-- **C4.** An invalid edit (occurrence < 1, N-th match of `target_text`
missing, or a range with `start < 0`, `end > len(text)`, or `start > end`) is
dropped as a no-op: the batch yields exactly what it would yield without that
edit, it never raises (`apply_changes` is total), and the remaining edits are
still applied. -/
theorem invalid_edit_dropped (text : List Char) (c : Change) (l1 l2 : List Change)
    (h : invalid_change text c) :
    apply_changes text (l1 ++ c :: l2) = apply_changes text (l1 ++ l2) := by
  have hc : (change_position text c).map (fun p => (p, c)) = none := by
    rw [change_position_eq_none h]
    rfl
  rw [apply_changes, apply_changes, sort_changes_by_position, sort_changes_by_position,
    List.filterMap_append, List.filterMap_append, List.filterMap_cons, hc]

theorem invalid_edit_dropped_witness :
    apply_changes ['a', 'b'] [Change.range (-1) 0 ['X'], Change.range 0 1 ['Z']] =
      apply_changes ['a', 'b'] [Change.range 0 1 ['Z']] := by
  have h : invalid_change ['a', 'b'] (Change.range (-1) 0 ['X']) := Or.inl (by decide)
  exact invalid_edit_dropped ['a', 'b'] (Change.range (-1) 0 ['X'])
    [] [Change.range 0 1 ['Z']] h

/-- Evaluating `mergeSort` on a two-element list. -/
theorem mergeSort_pair {α : Type} (le : α → α → Bool) (u v : α) :
    [u, v].mergeSort le = if le u v then [u, v] else [v, u] := by
  rw [List.mergeSort]
  simp [List.merge]

/-- The span `[position, position + replaced length)` a change resolves to in
the original text. -/
def change_span (text : List Char) : Change → Option (Nat × Nat)
  | .target t occ _ => (find_target_position text t occ).map fun p => (p, p + t.length)
  | .range s e _ =>
    if 0 ≤ s ∧ e ≤ (text.length : Int) ∧ s ≤ e then some (s.toNat, e.toNat) else none

theorem change_position_eq_span_fst {text : List Char} {c : Change} {p e : Nat}
    (h : change_span text c = some (p, e)) : change_position text c = some p := by
  cases c with
  | target t occ repl =>
    rw [change_span] at h
    rw [change_position]
    cases hf : find_target_position text t occ with
    | none => simp [hf] at h
    | some q =>
      rw [hf] at h
      simp at h
      rw [h.1]
  | range s e' repl =>
    rw [change_span] at h
    rw [change_position]
    by_cases hcond : 0 ≤ s ∧ e' ≤ (text.length : Int) ∧ s ≤ e'
    · rw [if_pos hcond] at h
      simp only [Option.some_inj, Prod.mk.injEq] at h
      rw [if_pos hcond, h.1]
    · rw [if_neg hcond] at h
      exact absurd h (by simp)

/-- **C3.** Two edits whose resolved spans in the original text do not overlap
(positions `p1 < p2`, with the first span ending at or before `p2`) produce the
same output text for both orderings of the two edits in the input batch. -/
theorem nonoverlapping_edits_commute (text : List Char) (c1 c2 : Change)
    (p1 e1 p2 e2 : Nat)
    (h1 : change_span text c1 = some (p1, e1)) (h2 : change_span text c2 = some (p2, e2))
    (hlt : p1 < p2) (hdisj : e1 ≤ p2) :
    apply_changes text [c1, c2] = apply_changes text [c2, c1] := by
  have hp1 := change_position_eq_span_fst h1
  have hp2 := change_position_eq_span_fst h2
  have hfm12 :
      List.filterMap (fun c => (change_position text c).map fun p => (p, c)) [c1, c2] =
        [(p1, c1), (p2, c2)] := by
    simp [hp1, hp2]
  have hfm21 :
      List.filterMap (fun c => (change_position text c).map fun p => (p, c)) [c2, c1] =
        [(p2, c2), (p1, c1)] := by
    simp [hp1, hp2]
  rw [apply_changes, apply_changes, sort_changes_by_position, sort_changes_by_position,
    hfm12, hfm21, mergeSort_pair, mergeSort_pair]
  have hle : decide (p1 ≤ p2) = true := decide_eq_true (by omega)
  have hnle : decide (p2 ≤ p1) = false := decide_eq_false (by omega)
  rw [if_pos hle, if_neg (by simp [hnle])]

theorem nonoverlapping_edits_commute_witness :
    change_span ['a', 'b', 'c', 'd'] (Change.range 0 1 ['X']) = some (0, 1) ∧
    change_span ['a', 'b', 'c', 'd'] (Change.range 2 3 ['Y']) = some (2, 3) ∧
    apply_changes ['a', 'b', 'c', 'd'] [Change.range 0 1 ['X'], Change.range 2 3 ['Y']] =
      apply_changes ['a', 'b', 'c', 'd'] [Change.range 2 3 ['Y'], Change.range 0 1 ['X']] := by
  refine ⟨by decide, by decide, ?_⟩
  exact nonoverlapping_edits_commute ['a', 'b', 'c', 'd']
    (Change.range 0 1 ['X']) (Change.range 2 3 ['Y']) 0 1 2 3
    (by decide) (by decide) (by decide) (by decide)

/-! ## Lock handle (`core/document_store.py`, `DocumentLock`)

The blob store is modelled as the current content of the lock blob
(`Option LockRecord`, `none` when absent); Boolean flags stand for the
environment's choices of I/O outcome at each fallible primitive. In the
source, every exception is caught inside `acquire`/`release`, so the
embedding is a total function — no exception channel exists. -/

structure LockRecord where
  lock_id : String
  timestamp : Int
  timeout : Int
deriving DecidableEq

structure LockHandle where
  lock_id : String
  lock_timeout : Int
  lock_acquired : Bool
deriving DecidableEq

structure AcquireResult where
  handle : LockHandle
  store : Option LockRecord
  acquired : Bool
deriving DecidableEq

/-- `DocumentLock._steal_lock` (lines 74-94): unconditional overwrite of the
lock blob with this handle's `lock_id`; on an upload exception, print and
return `False` leaving local state unchanged. -/
def steal_lock (h : LockHandle) (now : Int) (store : Option LockRecord)
    (stealUploadFails : Bool) : AcquireResult :=
  if stealUploadFails then ⟨h, store, false⟩
  else ⟨{ h with lock_acquired := true }, some ⟨h.lock_id, now, h.lock_timeout⟩, true⟩

/-- `DocumentLock.acquire` (lines 32-72). `createIOFails` is a non-`Conflict`
exception from the conditional create (outer handler: return `False`);
`readFails` is any exception while reading/parsing the existing record
(unreadable or corrupt: treat as abandoned and steal). -/
def acquire (h : LockHandle) (now : Int) (store : Option LockRecord)
    (createIOFails readFails stealUploadFails : Bool) : AcquireResult :=
  if createIOFails then ⟨h, store, false⟩
  else
    match store with
    | none =>
      ⟨{ h with lock_acquired := true }, some ⟨h.lock_id, now, h.lock_timeout⟩, true⟩
    | some r =>
      if readFails then steal_lock h now (some r) stealUploadFails
      else if now - r.timestamp > r.timeout then steal_lock h now (some r) stealUploadFails
      else ⟨h, some r, false⟩

/-- `DocumentLock.release` (lines 96-107): only when locally held, re-read the
stored record and delete it only when its `lock_id` matches this handle's;
every exception (read failure, absent blob, delete failure) is swallowed, and
the local held flag is always cleared by the `finally`. -/
def release (h : LockHandle) (store : Option LockRecord)
    (readFails deleteFails : Bool) : LockHandle × Option LockRecord :=
  if h.lock_acquired then
    ({ h with lock_acquired := false },
      if readFails then store
      else
        match store with
        | none => store
        | some r =>
          if r.lock_id == h.lock_id then (if deleteFails then store else none)
          else store)
  else (h, store)

/-- **C5.** `acquire`: a live (unexpired) record yields "not acquired" with the
store untouched; an expired or unreadable record is stolen (unconditional
overwrite with this handle's `lock_id`) yielding held; and a transient I/O
error on the create or on the steal upload yields "not acquired" — never an
exception (the embedding is a total function; every source path is caught). -/
theorem acquire_lock_protocol (h : LockHandle) (now : Int) (r : LockRecord)
    (store : Option LockRecord) (cf rf sf : Bool) :
    (cf = false → rf = false → now - r.timestamp ≤ r.timeout →
      acquire h now (some r) cf rf sf = ⟨h, some r, false⟩)
    ∧ (cf = false → sf = false → (rf = true ∨ now - r.timestamp > r.timeout) →
      acquire h now (some r) cf rf sf =
        ⟨{ h with lock_acquired := true }, some ⟨h.lock_id, now, h.lock_timeout⟩, true⟩)
    ∧ (cf = true → (acquire h now store cf rf sf).acquired = false)
    ∧ (sf = true → (acquire h now (some r) cf rf sf).acquired = false) := by
  refine ⟨?_, ?_, ?_, ?_⟩
  · intro hcf hrf hle
    subst hcf
    subst hrf
    have hexp : ¬(now - r.timestamp > r.timeout) := by omega
    simp [acquire.eq_def, hexp]
  · intro hcf hsf hsteal
    subst hcf
    subst hsf
    cases rf with
    | true => simp [acquire.eq_def, steal_lock.eq_def]
    | false =>
      have hexp : now - r.timestamp > r.timeout := by
        rcases hsteal with h' | h'
        · exact absurd h' (by simp)
        · exact h'
      simp [acquire.eq_def, steal_lock.eq_def, hexp]
  · intro hcf
    subst hcf
    simp [acquire.eq_def]
  · intro hsf
    subst hsf
    cases cf with
    | true => simp [acquire.eq_def]
    | false =>
      cases rf with
      | true => simp [acquire.eq_def, steal_lock.eq_def]
      | false =>
        by_cases hexp : now - r.timestamp > r.timeout
        · simp [acquire.eq_def, steal_lock.eq_def, hexp]
        · simp [acquire.eq_def, hexp]

theorem acquire_lock_protocol_witness :
    acquire ⟨"me", 300, false⟩ 100 (some ⟨"other", 0, 300⟩) false false false =
      ⟨⟨"me", 300, false⟩, some ⟨"other", 0, 300⟩, false⟩ ∧
    acquire ⟨"me", 300, false⟩ 500 (some ⟨"other", 0, 300⟩) false false false =
      ⟨⟨"me", 300, true⟩, some ⟨"me", 500, 300⟩, true⟩ ∧
    (acquire ⟨"me", 300, false⟩ 100 (some ⟨"other", 0, 300⟩) true false false).acquired =
      false := by
  have h1 := acquire_lock_protocol ⟨"me", 300, false⟩ 100 ⟨"other", 0, 300⟩
    (some ⟨"other", 0, 300⟩) false false false
  have h2 := acquire_lock_protocol ⟨"me", 300, false⟩ 500 ⟨"other", 0, 300⟩
    (some ⟨"other", 0, 300⟩) false false false
  have h3 := acquire_lock_protocol ⟨"me", 300, false⟩ 100 ⟨"other", 0, 300⟩
    (some ⟨"other", 0, 300⟩) true false false
  exact ⟨h1.1 rfl rfl (by decide), h2.2.1 rfl rfl (Or.inr (by decide)), h3.2.2.1 rfl⟩

/-- **C6.** `release`: not locally held ⇒ no effect at all; held ⇒ the stored
record is deleted exactly when its `lock_id` equals this handle's, and left
unchanged otherwise (including on swallowed read/delete I/O errors); in every
case the local held flag ends up cleared and no exception propagates (the
embedding is total). -/
theorem release_lock_protocol (h : LockHandle) (store : Option LockRecord)
    (rf df : Bool) :
    (h.lock_acquired = false → release h store rf df = (h, store))
    ∧ (∀ r, h.lock_acquired = true → rf = false → df = false →
        store = some r → r.lock_id = h.lock_id →
        release h store rf df = ({ h with lock_acquired := false }, none))
    ∧ (∀ r, h.lock_acquired = true → store = some r → r.lock_id ≠ h.lock_id →
        (release h store rf df).2 = store)
    ∧ (h.lock_acquired = true → rf = true →
        release h store rf df = ({ h with lock_acquired := false }, store))
    ∧ (release h store rf df).1.lock_acquired = false := by
  refine ⟨?_, ?_, ?_, ?_, ?_⟩
  · intro hheld
    simp [release.eq_def, hheld]
  · intro r hheld hrf hdf hstore hid
    subst hrf
    subst hdf
    subst hstore
    simp [release.eq_def, hheld, hid]
  · intro r hheld hstore hid
    subst hstore
    have hne : (r.lock_id == h.lock_id) = false := beq_eq_false_iff_ne.mpr hid
    cases rf with
    | true => simp [release.eq_def, hheld]
    | false => simp [release.eq_def, hheld, hne]
  · intro hheld hrf
    subst hrf
    simp [release.eq_def, hheld]
  · by_cases hheld : h.lock_acquired = true
    · simp [release.eq_def, hheld]
    · simp only [Bool.not_eq_true] at hheld
      simp [release.eq_def, hheld]

theorem release_lock_protocol_witness :
    release ⟨"me", 300, true⟩ (some ⟨"me", 0, 300⟩) false false =
      (⟨"me", 300, false⟩, none) ∧
    (release ⟨"me", 300, true⟩ (some ⟨"thief", 0, 300⟩) false false).2 =
      some ⟨"thief", 0, 300⟩ ∧
    release ⟨"me", 300, false⟩ (some ⟨"me", 0, 300⟩) false false =
      (⟨"me", 300, false⟩, some ⟨"me", 0, 300⟩) := by
  have h1 := release_lock_protocol ⟨"me", 300, true⟩ (some ⟨"me", 0, 300⟩) false false
  have h2 := release_lock_protocol ⟨"me", 300, true⟩ (some ⟨"thief", 0, 300⟩) false false
  have h3 := release_lock_protocol ⟨"me", 300, false⟩ (some ⟨"me", 0, 300⟩) false false
  exact ⟨h1.2.1 ⟨"me", 0, 300⟩ rfl rfl rfl rfl rfl,
    h2.2.2.1 ⟨"thief", 0, 300⟩ rfl rfl (by decide), h3.1 rfl⟩

/-! ## Lock coordinator (`HierarchicalLock.lock_hierarchy`, lines 131-157) -/

/-- Python `sorted` comparison on document ids. -/
def idLE (a b : String) : Bool := a ≤ b

/-- The sequence of ids on which `lock_hierarchy` issues `acquire` calls,
given which ids acquire successfully: it walks the sorted list and stops at
(and includes) the first failing id. -/
def acquire_sequence (acquireOk : String → Bool) : List String → List String
  | [] => []
  | docId :: rest =>
    if acquireOk docId then docId :: acquire_sequence acquireOk rest else [docId]

/-- `lock_hierarchy` sorts `document_ids` (line 134) before acquiring. -/
def lock_hierarchy_calls (acquireOk : String → Bool)
    (document_ids : List String) : List String :=
  acquire_sequence acquireOk (document_ids.mergeSort idLE)

theorem sorted_ids_eq_of_perm {l1 l2 : List String} (h : l1.Perm l2) :
    l1.mergeSort idLE = l2.mergeSort idLE := by
  have htrans : ∀ a b c : String, idLE a b → idLE b c → idLE a c := by
    intro a b c hab hbc
    simp only [idLE, decide_eq_true_eq] at *
    exact le_trans hab hbc
  have htotal : ∀ a b : String, idLE a b || idLE b a := by
    intro a b
    simp only [idLE, Bool.or_eq_true, decide_eq_true_eq]
    exact le_total a b
  have hperm : (l1.mergeSort idLE).Perm (l2.mergeSort idLE) :=
    ((List.mergeSort_perm l1 idLE).trans h).trans (List.mergeSort_perm l2 idLE).symm
  have hs1 : (l1.mergeSort idLE).Sorted (· ≤ ·) :=
    (List.sorted_mergeSort htrans htotal l1).imp (by simp [idLE])
  have hs2 : (l2.mergeSort idLE).Sorted (· ≤ ·) :=
    (List.sorted_mergeSort htrans htotal l2).imp (by simp [idLE])
  exact List.eq_of_perm_of_sorted hperm hs1 hs2

/-- **C7.** `lock_many` acquires locks in one canonical sorted order depending
only on the multiset of ids, not their order in the input list: any two
permutations of the ids issue their `acquire` calls in the identical
sequence (whatever each individual acquire's outcome is). -/
theorem lock_hierarchy_canonical_order (acquireOk : String → Bool)
    (l1 l2 : List String) (h : l1.Perm l2) :
    lock_hierarchy_calls acquireOk l1 = lock_hierarchy_calls acquireOk l2 := by
  rw [lock_hierarchy_calls, lock_hierarchy_calls, sorted_ids_eq_of_perm h]

theorem lock_hierarchy_canonical_order_witness :
    lock_hierarchy_calls (fun _ => true) ["b", "a"] =
      lock_hierarchy_calls (fun _ => true) ["a", "b"] :=
  lock_hierarchy_canonical_order (fun _ => true) ["b", "a"] ["a", "b"]
    (List.Perm.swap "a" "b" [])

/-! ## Document store (`GCSDocumentStore`) and the batch redline endpoint
(`main.py`). The `documents/` namespace of the bucket is modelled as a map
from document id to stored document; timestamps are integers and `now` is
passed explicitly. The operations below model the locked critical sections
(the lock having been acquired; lock failure is the `processing_error` path
of the endpoint). -/

structure Document where
  id : String
  title : String
  text : List Char
  version : Int
  created_at : Int
  updated_at : Int
deriving DecidableEq

/-- `GCSDocumentStore.append` (lines 308-331): under the document's lock, read
the document; absent ⇒ `False` (NotFound) with no write; else concatenate the
suffix, increment the version by 1, refresh `updated_at`, and persist. -/
def append (store : String → Option Document) (now : Int) (doc_id : String)
    (text_to_append : List Char) : (String → Option Document) × Bool :=
  match store doc_id with
  | none => (store, false)
  | some document =>
    let updated := { document with
      text := document.text ++ text_to_append
      version := document.version + 1
      updated_at := now }
    (fun k => if k = doc_id then some updated else store k, true)

/-- **C8.** `append` on a missing id fails NotFound (`false`) and leaves the
store unchanged; on an existing document with text `T` and version `V` it
persists text `T ++ suffix`, version exactly `V + 1`, and a refreshed
`updated_at`, touching no other document. -/
theorem append_store_correct (store : String → Option Document) (now : Int)
    (doc_id : String) (suffix : List Char) :
    (store doc_id = none → append store now doc_id suffix = (store, false))
    ∧ (∀ d, store doc_id = some d →
        (append store now doc_id suffix).2 = true
        ∧ (append store now doc_id suffix).1 doc_id =
            some { d with
              text := d.text ++ suffix
              version := d.version + 1
              updated_at := now }
        ∧ ∀ k, k ≠ doc_id → (append store now doc_id suffix).1 k = store k) := by
  constructor
  · intro habs
    rw [append, habs]
  · intro d hd
    refine ⟨?_, ?_, ?_⟩
    · rw [append, hd]
    · rw [append, hd]
      simp
    · intro k hk
      rw [append, hd]
      simp [hk]

theorem append_store_correct_witness :
    (append (fun _ => none) 7 "doc1" [' ', 'm'] = (fun _ => none, false))
    ∧ (append
        (fun k => if k = "doc1" then some ⟨"doc1", "t", ['O', 'r'], 1, 0, 0⟩ else none)
        7 "doc1" [' ', 'm']).1 "doc1" =
      some ⟨"doc1", "t", ['O', 'r', ' ', 'm'], 2, 0, 7⟩ := by
  have h1 := (append_store_correct (fun _ => none) 7 "doc1" [' ', 'm']).1 rfl
  have h2 := ((append_store_correct
    (fun k => if k = "doc1" then some ⟨"doc1", "t", ['O', 'r'], 1, 0, 0⟩ else none)
    7 "doc1" [' ', 'm']).2 ⟨"doc1", "t", ['O', 'r'], 1, 0, 0⟩ (by simp)).2.1
  exact ⟨h1, h2⟩

/-! ### Batch redline by target (`main.py`, `redline_documents_by_target`,
lines 199-271) -/

structure TargetRedlineRequest where
  document_id : String
  target_text : List Char
  replacement : List Char
  occurrence : Int

/-- The accumulated endpoint state: the store plus the `documents` (success)
and `skipped` response lists, in emission order. -/
structure RedlineState where
  store : String → Option Document
  results : List (String × Int)
  skipped : List (String × String)

/-- One iteration of the request loop: unlocked existence pre-check (skip
`"not_found"`), lock acquisition (a `RuntimeError` is caught by the
`except` and recorded as `"processing_error"`), re-read (skip `"not_found"`),
then apply the single target edit, bump the version, refresh `updated_at`,
persist, and record the success entry. -/
def redline_target_step (lockOk : String → Bool) (now : Int) (st : RedlineState)
    (req : TargetRedlineRequest) : RedlineState :=
  if (st.store req.document_id).isNone then
    { st with skipped := st.skipped ++ [(req.document_id, "not_found")] }
  else if !lockOk req.document_id then
    { st with skipped := st.skipped ++ [(req.document_id, "processing_error")] }
  else
    match st.store req.document_id with
    | none => { st with skipped := st.skipped ++ [(req.document_id, "not_found")] }
    | some document =>
      let updated := { document with
        text := apply_changes document.text
          [Change.target req.target_text req.occurrence req.replacement]
        version := document.version + 1
        updated_at := now }
      { st with
        store := fun k => if k = req.document_id then some updated else st.store k
        results := st.results ++ [(updated.id, updated.version)] }

def redline_documents_by_target (lockOk : String → Bool) (now : Int)
    (store : String → Option Document)
    (requests : List TargetRedlineRequest) : RedlineState :=
  requests.foldl (redline_target_step lockOk now) ⟨store, [], []⟩

/-- **C9.** Requests of a redline batch are processed independently: a batch
with one missing id followed by one valid id yields exactly one success entry
carrying that document's version incremented by 1 and exactly one skip entry
with reason `"not_found"` — the first item's failure does not affect its
sibling. -/
theorem redline_batch_isolates_failures (lockOk : String → Bool) (now : Int)
    (store : String → Option Document) (r1 r2 : TargetRedlineRequest) (d : Document)
    (h1 : store r1.document_id = none)
    (h2 : store r2.document_id = some d)
    (hl : lockOk r2.document_id = true) :
    (redline_documents_by_target lockOk now store [r1, r2]).results =
      [(d.id, d.version + 1)]
    ∧ (redline_documents_by_target lockOk now store [r1, r2]).skipped =
      [(r1.document_id, "not_found")] := by
  have hstep1 : redline_target_step lockOk now ⟨store, [], []⟩ r1 =
      ⟨store, [], [(r1.document_id, "not_found")]⟩ := by
    simp [redline_target_step.eq_def, h1]
  have hstep2 : ∀ res skip, redline_target_step lockOk now ⟨store, res, skip⟩ r2 =
      ⟨fun k => if k = r2.document_id then
          some { d with
            text := apply_changes d.text
              [Change.target r2.target_text r2.occurrence r2.replacement]
            version := d.version + 1
            updated_at := now }
        else store k,
        res ++ [(d.id, d.version + 1)], skip⟩ := by
    intro res skip
    simp [redline_target_step.eq_def, h2, hl]
  rw [redline_documents_by_target, List.foldl_cons, List.foldl_cons, List.foldl_nil,
    hstep1, hstep2]
  exact ⟨rfl, rfl⟩

theorem redline_batch_isolates_failures_witness :
    (redline_documents_by_target (fun _ => true) 9
      (fun k => if k = "doc2" then some ⟨"doc2", "t", ['a', 'b'], 3, 0, 0⟩ else none)
      [⟨"doc1", ['a'], ['X'], 1⟩, ⟨"doc2", ['a'], ['X'], 1⟩]).results = [("doc2", 4)]
    ∧ (redline_documents_by_target (fun _ => true) 9
      (fun k => if k = "doc2" then some ⟨"doc2", "t", ['a', 'b'], 3, 0, 0⟩ else none)
      [⟨"doc1", ['a'], ['X'], 1⟩, ⟨"doc2", ['a'], ['X'], 1⟩]).skipped =
        [("doc1", "not_found")] := by
  have h := redline_batch_isolates_failures (fun _ => true) 9
    (fun k => if k = "doc2" then some ⟨"doc2", "t", ['a', 'b'], 3, 0, 0⟩ else none)
    ⟨"doc1", ['a'], ['X'], 1⟩ ⟨"doc2", ['a'], ['X'], 1⟩
    ⟨"doc2", "t", ['a', 'b'], 3, 0, 0⟩ (by simp) (by simp) rfl
  exact h

end Redline
